import Mathlib

/-!
# Verification of the d20 histogram visualizer core (`src/main.rs`)

Shallow embedding of the `World` state and its operations:

* `World.set_size`  — layout derivation (`column_width`, `offset`);
* `World.update`    — roll accumulation, extreme-finding scan, overflow
  normalization (parameterized by the random source's output sequence);
* `World.drawPixel` — the per-pixel body of `World.draw`.

Machine-integer conventions:

* `u32` values are `ℕ` together with explicit `% 2 ^ 32` at the spots where
  the Rust program performs a wrapping cast (`i as u32`) or where release-mode
  arithmetic would wrap (`draw`'s `value` computation).  Debug-mode Rust would
  panic at exactly those wrapping spots, so a claim refuted by a wrap here is
  also refuted (by a panic) in a debug build.
* `u64` counters are plain `ℕ`: counters start at 0 and grow by at most
  10000 per `update`, so `u64` overflow is out of reach; theorems that depend
  on the `u64::MAX` sentinel of the extreme-finding scan carry explicit
  `< 2 ^ 64` bounds.
* Fallible operations (array indexing with `expect`, integer remainder by
  zero) return `Option`, with `none` for a panic.

The one piece of non-integer arithmetic in the source is `f64`:
`set_size` computes `(width as f64 / 20.).floor() as u32`, and `update`
computes `adjustment as f64 * (count as f64 / max_allowed as f64)` before the
`as u64` truncating cast.  IEEE-754 binary64 arithmetic is embedded exactly:
`roundF64` rounds a fraction of naturals to the nearest binary64 value
(round-to-nearest, ties-to-even, 53-bit mantissa), represented as a
mantissa/exponent pair so every operation is executable natural-number
arithmetic (all values arising in this program are 0 or normal, far from
overflow and underflow, so exponent clamping never fires and is not
modelled).
-/

set_option maxRecDepth 8000

/-- `u64::MAX`. -/
def u64Max : ℕ := 2 ^ 64 - 1

/-! ## Exact binary64 rounding

A nonnegative binary64 value is represented as a mantissa/exponent pair
`⟨n, e⟩` standing for `n · 2 ^ (e - 52)`; after rounding, `2 ^ 52 ≤ n ≤ 2 ^ 53`
and `e = ⌊log₂ value⌋`, but the arithmetic below only ever depends on the
represented value, so no normalization invariant is needed.  All executable
arithmetic is on `ℕ` so that the kernel can evaluate it; the rational value
semantics `valF64` is used only inside proofs. -/

/-- Fuel-driven binary logarithm on `ℕ` (`⌊log₂ n⌋` for `n ≥ 1` given enough
fuel); structural recursion so that the kernel evaluates it. -/
def log2p : ℕ → ℕ → ℕ
  | 0, _ => 0
  | fuel + 1, n => if 2 ≤ n then log2p fuel (n / 2) + 1 else 0

/-- Round the fraction `num / den` to the nearest integer, ties to even. -/
def roundNatNE (num den : ℕ) : ℕ :=
  if 2 * (num % den) < den then num / den
  else if den < 2 * (num % den) then num / den + 1
  else if 2 ∣ num / den then num / den else num / den + 1

/-- `⌊log₂ (a / b)⌋` for `a, b ≥ 1` (junk on zero inputs; all fractions in
this development have numerator and denominator far below `2 ^ 300`, so the
fuel never runs out). -/
def exp2Floor (a b : ℕ) : ℤ :=
  if b ≤ a then (log2p 300 (a / b) : ℤ)
  else if b ≤ a * 2 ^ log2p 300 (b / a) then -(log2p 300 (b / a) : ℤ)
  else -((log2p 300 (b / a) : ℤ) + 1)

/-- A nonnegative binary64 value `n · 2 ^ (e - 52)`. -/
structure F64 where
  n : ℕ
  e : ℤ
  deriving Repr, DecidableEq

/-- Round the fraction `a / b` (with `b ≠ 0`) to the nearest binary64 value:
round-to-nearest, ties-to-even, 53-bit mantissa.  All values in this program
are 0 or normal and far from overflow/underflow, so exponent clamping never
fires and is not modelled. -/
def roundF64 (a b : ℕ) : F64 :=
  if a = 0 then ⟨0, 0⟩
  else if 52 ≤ exp2Floor a b then
    ⟨roundNatNE a (b * 2 ^ (exp2Floor a b - 52).toNat), exp2Floor a b⟩
  else ⟨roundNatNE (a * 2 ^ (52 - exp2Floor a b).toNat) b, exp2Floor a b⟩

/-- Exact conversion context `uN as f64` (rounds when the integer needs more
than 53 bits). -/
def toF64 (c : ℕ) : F64 := roundF64 c 1

/-- IEEE division of two binary64 values (`y` nonzero): the exact quotient
`(x.n / y.n) · 2 ^ (x.e - y.e)` as a fraction of naturals, correctly rounded. -/
def divF64 (x y : F64) : F64 :=
  if 0 ≤ x.e - y.e then roundF64 (x.n * 2 ^ (x.e - y.e).toNat) y.n
  else roundF64 x.n (y.n * 2 ^ (y.e - x.e).toNat)

/-- IEEE multiplication of two binary64 values: the exact product
`(x.n · y.n) · 2 ^ (x.e + y.e - 104)` as a fraction, correctly rounded. -/
def mulF64 (x y : F64) : F64 :=
  if 0 ≤ x.e + y.e - 104 then roundF64 (x.n * y.n * 2 ^ (x.e + y.e - 104).toNat) 1
  else roundF64 (x.n * y.n) (2 ^ (104 - x.e - y.e).toNat)

/-- The truncating cast of a (nonnegative, finite) binary64 value to an
integer: `⌊n · 2 ^ (e - 52)⌋`. -/
def truncF64 (x : F64) : ℕ :=
  if 0 ≤ x.e - 52 then x.n * 2 ^ (x.e - 52).toNat
  else x.n / 2 ^ (52 - x.e).toNat

/-- `2 ^ k` for an integer `k`, as a rational (proof-side only). -/
def pow2 (k : ℤ) : ℚ :=
  if 0 ≤ k then ((2 ^ k.toNat : ℕ) : ℚ) else 1 / ((2 ^ (-k).toNat : ℕ) : ℚ)

/-- The rational value of a binary64 representation (proof-side only). -/
def valF64 (x : F64) : ℚ := (x.n : ℚ) * pow2 (x.e - 52)

/-! ## The `World` state and `set_size` -/

/-- The application state of `src/main.rs` (`struct World`).
Counters and dimensions are `ℕ` (see the header comment for the
machine-integer conventions); `colors` is the list of 20 RGBA quadruples. -/
structure World where
  roll_counts : List ℕ
  winning_roll_key : Option ℕ
  losing_roll_key : Option ℕ
  width : ℕ
  height : ℕ
  column_width : ℕ
  offset : ℕ
  colors : List (List ℕ)
  deriving Repr, DecidableEq

/-- `(width as f64 / 20.).floor() as u32`: the `u32 → f64` conversion is exact
(`width < 2 ^ 32 < 2 ^ 53`), the division by `20.0` rounds once, `floor` on a
nonnegative binary64 value coincides with the truncating cast, and the result
fits `u32`, so the final cast does not saturate. -/
def columnWidthF64 (width : ℕ) : ℕ :=
  truncF64 (divF64 (toF64 width) (toF64 20))

/-- `World::set_size`.  The `u32` subtraction `width - column_width * 20`
never underflows (`columnWidthF64_mul20_le` below), so the function is total,
exactly as in the source. -/
def World.set_size (s : World) (width height : ℕ) : World :=
  { s with
    width := width
    height := height
    column_width := columnWidthF64 width
    offset := (width - columnWidthF64 width * 20) / 2 }

/-- `World::new`: palette of 20 colors `[0, 9·(i+1), 9·(i+1), 255]`, all
counters zero, no winning/losing face, then `set_size`. -/
def World.new (width height : ℕ) : World :=
  World.set_size
    { roll_counts := List.replicate 20 0
      winning_roll_key := none
      losing_roll_key := none
      width := 0
      height := 0
      column_width := 0
      offset := 0
      colors := (List.range 20).map (fun i => [0, 9 * (i + 1), 9 * (i + 1), 255]) }
    width height

/-! ## `World::update` -/

/-- The roll-accumulation loop of `World::update`: for each roll `r`,
`roll_counts[r - 1] += 1`.  The index `r - 1` is computed on `usize`, so
`r = 0` wraps to `2 ^ 64 - 1` (and in either Rust profile the subsequent
`get_mut(..).expect(..)` panics, i.e. `none`); the random source only ever
produces `1 ≤ r ≤ 20`. -/
def rollAccum : List ℕ → List ℕ → Option (List ℕ)
  | [], counts => some counts
  | r :: rs, counts =>
    let idx := (r + 2 ^ 64 - 1) % 2 ^ 64
    if idx < counts.length then rollAccum rs (counts.set idx (counts.getD idx 0 + 1))
    else none

/-- The extreme-finding loop of `World::update`: one pass with running
`min_found` / `max_found`, updating `winning_roll_key` / `losing_roll_key`
only on a strict improvement.  `k` is the index of the head of `rest`. -/
def scanLoop : ℕ → List ℕ → ℕ → ℕ → Option ℕ → Option ℕ →
    ℕ × ℕ × Option ℕ × Option ℕ
  | _, [], minF, maxF, win, lose => (minF, maxF, win, lose)
  | k, c :: rest, minF, maxF, win, lose =>
    scanLoop (k + 1) rest (if c < minF then c else minF) (if maxF < c then c else maxF)
      (if maxF < c then some k else win) (if c < minF then some k else lose)

/-- `adjustment as f64 * (*count as f64 / max_allowed as f64)` followed by the
truncating, saturating `as u64` cast.  For `m = 0` (reachable only with
`height = 0`): `c / 0.0` is `+∞` for `c > 0` and NaN for `c = 0`;
`0.0 * ∞` is NaN; NaN casts to 0 and `+∞` saturates to `u64::MAX`. -/
def rollAdjF64 (adj c m : ℕ) : ℕ :=
  if m = 0 then
    if c = 0 then 0 else if adj = 0 then 0 else u64Max
  else
    min (truncF64 (mulF64 (toF64 adj) (divF64 (toF64 c) (toF64 m)))) u64Max

/-- The overflow-normalization phase of `World::update`.  Runs only when
`max_found > max_allowed`; `adjustment % column_width` is a `u64` remainder,
which panics (`none`) when `column_width = 0`. -/
def normalizePhase (column_width m maxF : ℕ) (counts : List ℕ) :
    Option (List ℕ) :=
  if m < maxF then
    if column_width = 0 then none
    else
      let adj := maxF - m - (maxF - m) % column_width
      some (counts.map (fun c => c - min (rollAdjF64 adj c m) c))
  else some counts

/-- `World::update`, parameterized by the random source: `rng n` is the
outcome of the `n`-th `rng.gen_range(1..=20)` call (so `1 ≤ rng n ≤ 20`);
the loop draws exactly 10000 rolls. -/
def World.update (rng : ℕ → ℕ) (s : World) : Option World :=
  (rollAccum ((List.range 10000).map rng) s.roll_counts).bind fun counts =>
    let scan := scanLoop 0 counts u64Max 0 s.winning_roll_key s.losing_roll_key
    let max_allowed := s.column_width * s.height
    (normalizePhase s.column_width max_allowed scan.2.1 counts).map fun counts2 =>
      { s with
        roll_counts := counts2
        winning_roll_key := scan.2.2.1
        losing_roll_key := scan.2.2.2 }

/-! ## `World::draw` -/

/-- The loop body of `World::draw` for the pixel at chunk index `i`
(byte offset `4 * i`): the 4 RGBA bytes written to that pixel.
`i as u32` truncates (`% 2 ^ 32`); `% width` and `/ width` panic (`none`)
when `width = 0`; the `height - 1 - i / width` and
`y * column_width + roll_x + 1` computations wrap on `u32` (release profile;
a debug build panics at the same inputs). -/
def World.drawPixel (s : World) (i : ℕ) : Option (List ℕ) :=
  if s.width = 0 then none
  else
    let iT := i % 2 ^ 32
    let total_x := iT % s.width
    let y := (s.height + 2 ^ 32 - 1 - iT / s.width) % 2 ^ 32
    let cutoff := (s.offset + s.column_width * 20) % 2 ^ 32
    let roll_key : Option ℕ :=
      if s.offset ≤ total_x ∧ total_x < cutoff then
        some ((total_x - s.offset) / s.column_width)
      else none
    let highlighted : Bool :=
      match roll_key with
      | some k =>
        let roll_x := total_x - s.offset - k * s.column_width
        let value := (y * s.column_width % 2 ^ 32 + roll_x + 1) % 2 ^ 32
        decide (value ≤ s.roll_counts.getD k 0)
      | none => false
    some (if highlighted then
      if roll_key = s.winning_roll_key then [0x33, 0xcc, 0x33, 0xff]
      else if roll_key = s.losing_roll_key then [0xcc, 0x33, 0x33, 0xff]
      else s.colors.getD (roll_key.getD 0) []
    else [0x33, 0x33, 0x33, 0xff])

/-- `World::draw` over a frame of `npix` pixels (`4 * npix` bytes). -/
def World.draw (s : World) (npix : ℕ) : Option (List (List ℕ)) :=
  (List.range npix).mapM (World.drawPixel s)

/-! ## Spec-side definitions

These follow the wording of the specification (for the refinement claims
about `draw` and for the extreme-finding characterization); they are compared
against the source-derived definitions above. -/

/-- The maximum of a list of counters (0 for the empty list). -/
def listMax (l : List ℕ) : ℕ := l.foldr max 0

/-- The minimum of a list of counters (`u64Max` for the empty list,
mirroring the scan's `u64::MAX` sentinel). -/
def listMin (l : List ℕ) : ℕ := l.foldr min u64Max

/-- The color the specification's pixel formula assigns to pixel `i`
(claim C6's wording): `total_x = i mod width`, `y = height - 1 - i div width`,
a face is assigned iff `left_margin ≤ total_x < left_margin + column_width·20`,
the pixel is highlighted iff `y·column_width + bar_x + 1 ≤ counts[face]`, and
the color is gray / green (winning) / red (losing) / `palette[face]` in
priority order, with all arithmetic exact. -/
def pixelSpec (s : World) (i : ℕ) : List ℕ :=
  let total_x := i % s.width
  let y := s.height - 1 - i / s.width
  if s.offset ≤ total_x ∧ total_x < s.offset + s.column_width * 20 then
    let face := (total_x - s.offset) / s.column_width
    let bar_x := total_x - s.offset - face * s.column_width
    let value := y * s.column_width + bar_x + 1
    if value ≤ s.roll_counts.getD face 0 then
      if some face = s.winning_roll_key then [0x33, 0xcc, 0x33, 0xff]
      else if some face = s.losing_roll_key then [0xcc, 0x33, 0x33, 0xff]
      else s.colors.getD face []
    else [0x33, 0x33, 0x33, 0xff]
  else [0x33, 0x33, 0x33, 0xff]

/-- Layout consistency: the `column_width` and `offset` fields hold the
values `set_size` derives from `width` (true of every state the program
constructs, since `new` and every resize go through `set_size`). -/
def World.layoutConsistent (s : World) : Prop :=
  s.column_width = s.width / 20 ∧ s.offset = (s.width - s.width / 20 * 20) / 2

/-! ## Concrete states used by counterexamples and witnesses -/

/-- The palette `World::new` builds. -/
def palette20 : List (List ℕ) :=
  (List.range 20).map (fun i => [0, 9 * (i + 1), 9 * (i + 1), 255])

/-- A 100×2000 state (`column_width = 5`, `max_allowed = 10000`) with a
leftover count of 3 on face 1: after 10000 rolls of face 1 the count is
10003, the overflow `10003 - 10000 = 3` is smaller than `column_width`, so
the adjustment rounds down to 0 and normalization changes nothing. -/
def worldC1cex : World :=
  { roll_counts := 3 :: List.replicate 19 0
    winning_roll_key := none
    losing_roll_key := none
    width := 100
    height := 2000
    column_width := 5
    offset := 0
    colors := palette20 }

/-- A 20×2880534941 state (`column_width = 1`, `max_allowed = 2880534941`)
arranged so that after 10000 rolls of face 1 the counts are
`[4559884074, 359526689, 0, …]`: the normalization adjustment is
`1679349133`, and for face 2 the `f64` product rounds up across an integer,
truncating to one more than the exact `⌊adjustment·count/max_allowed⌋`. -/
def worldC2cex : World :=
  { roll_counts := 4559874074 :: 359526689 :: List.replicate 18 0
    winning_roll_key := none
    losing_roll_key := none
    width := 20
    height := 2880534941
    column_width := 1
    offset := 0
    colors := palette20 }

/-- A 65536×131072 state (so `width * height = 2 ^ 33` pixels): at pixel
index `i = 2 ^ 32 + 100` the `i as u32` cast truncates to 100, so the code
addresses row `y = 131071` instead of the claim formula's `y = 65535`. -/
def worldC6cex : World :=
  { roll_counts := 300000000 :: List.replicate 19 0
    winning_roll_key := none
    losing_roll_key := none
    width := 65536
    height := 131072
    column_width := 3276
    offset := 8
    colors := palette20 }

/-- A 1310720×65536 state (`column_width = 65536`): at the pixel with
`total_x = 65535`, `y = 65535` the `u32` computation
`y * column_width + bar_x + 1` is exactly `2 ^ 32` and wraps to 0, which is
`≤` any count, so the pixel is drawn highlighted even over a zero count. -/
def worldC8cex : World :=
  { roll_counts := List.replicate 20 0
    winning_roll_key := none
    losing_roll_key := none
    width := 1310720
    height := 65536
    column_width := 65536
    offset := 0
    colors := palette20 }

/-! ## Lemmas: the binary64 layer -/

theorem pow2_eq_zpow (k : ℤ) : pow2 k = (2 : ℚ) ^ k := by
  unfold pow2
  split
  · rename_i h
    push_cast
    rw [← zpow_natCast (2 : ℚ) k.toNat, Int.toNat_of_nonneg h]
  · rename_i h
    push_cast
    rw [← zpow_natCast (2 : ℚ) (-k).toNat, Int.toNat_of_nonneg (by omega),
      one_div, ← zpow_neg, neg_neg]

theorem pow2_pos (k : ℤ) : 0 < pow2 k := by
  rw [pow2_eq_zpow]; positivity

theorem roundNatNE_err (num den : ℕ) (hden : den ≠ 0) :
    |(roundNatNE num den : ℚ) - (num : ℚ) / (den : ℚ)| ≤ 1 / 2 := by
  have hden0 : 0 < den := Nat.pos_of_ne_zero hden
  have hdenQ : (0 : ℚ) < (den : ℚ) := by exact_mod_cast hden0
  have hmod : num % den < den := Nat.mod_lt _ hden0
  have hsplit : (num : ℚ) / den = (num / den : ℕ) + ((num % den : ℕ) : ℚ) / den := by
    rw [div_eq_iff hdenQ.ne', add_mul, div_mul_cancel₀ _ hdenQ.ne']
    exact_mod_cast (Nat.div_add_mod' num den).symm
  have hr0 : (0 : ℚ) ≤ ((num % den : ℕ) : ℚ) / den := by positivity
  unfold roundNatNE
  split
  · rename_i hlt
    have hQ : ((num % den : ℕ) : ℚ) / den < 1 / 2 := by
      rw [div_lt_div_iff₀ hdenQ (by norm_num)]
      exact_mod_cast (by omega : (num % den) * 2 < 1 * den)
    rw [hsplit, abs_le]
    constructor <;> linarith
  · split
    · rename_i h1 h2
      have hub : ((num % den : ℕ) : ℚ) / den < 1 := by
        rw [div_lt_one hdenQ]; exact_mod_cast hmod
      have hlb : 1 / 2 < ((num % den : ℕ) : ℚ) / den := by
        rw [div_lt_div_iff₀ (by norm_num) hdenQ]
        exact_mod_cast (by omega : 1 * den < (num % den) * 2)
      rw [hsplit, abs_le]
      push_cast
      constructor <;> linarith
    · rename_i h1 h2
      have heq : ((num % den : ℕ) : ℚ) / den = 1 / 2 := by
        rw [div_eq_div_iff hdenQ.ne' (by norm_num : (2 : ℚ) ≠ 0)]
        exact_mod_cast (by omega : (num % den) * 2 = 1 * den)
      split
      all_goals
        rw [hsplit, heq, abs_le]
        push_cast
        constructor <;> linarith

theorem roundNatNE_dvd (num den : ℕ) (hden : den ≠ 0) (h : den ∣ num) :
    roundNatNE num den = num / den := by
  unfold roundNatNE
  have h0 : num % den = 0 := Nat.mod_eq_zero_of_dvd h
  simp [h0, Nat.pos_of_ne_zero hden]

theorem log2p_le (fuel n k : ℕ) (h : n < 2 ^ (k + 1)) : log2p fuel n ≤ k := by
  induction fuel generalizing n k with
  | zero => simp [log2p]
  | succ fuel ih =>
    unfold log2p
    split
    · rename_i h2
      match k with
      | 0 => omega
      | k + 1 =>
        have : n / 2 < 2 ^ (k + 1) := by
          rw [Nat.div_lt_iff_lt_mul (by norm_num)]
          calc n < 2 ^ (k + 2) := h
          _ = 2 ^ (k + 1) * 2 := by ring
        have := ih (n / 2) k this
        omega
    · omega

theorem exp2Floor_le (a b k : ℕ) (hb : b ≠ 0)
    (h : (a : ℚ) < (b : ℚ) * 2 ^ (k + 1)) : exp2Floor a b ≤ (k : ℤ) := by
  unfold exp2Floor
  split
  · have hnat : a < b * 2 ^ (k + 1) := by exact_mod_cast h
    have : a / b < 2 ^ (k + 1) := by
      rw [Nat.div_lt_iff_lt_mul (Nat.pos_of_ne_zero hb)]
      calc a < b * 2 ^ (k + 1) := hnat
      _ = 2 ^ (k + 1) * b := by ring
    exact_mod_cast log2p_le 300 (a / b) k this
  · split <;> omega

theorem val_mk (n : ℕ) (e : ℤ) : valF64 ⟨n, e⟩ = (n : ℚ) * (2 : ℚ) ^ (e - 52) := by
  unfold valF64
  rw [pow2_eq_zpow]

theorem val_roundF64 (a b : ℕ) (hb : b ≠ 0) :
    |valF64 (roundF64 a b) - (a : ℚ) / b| ≤ pow2 (exp2Floor a b - 53) := by
  have hbQ : (0 : ℚ) < (b : ℚ) := by exact_mod_cast Nat.pos_of_ne_zero hb
  rw [pow2_eq_zpow]
  unfold roundF64
  split
  · rename_i h0
    subst h0
    simp [val_mk]
    positivity
  · rename_i h0
    set e := exp2Floor a b with he
    have hkey : ∀ R x c : ℚ, 0 < c → |R - x| ≤ 1 / 2 → x * c = (a : ℚ) / b →
        |R * c - (a : ℚ) / b| ≤ c / 2 := by
      intro R x c hc herr hxc
      rw [← hxc, ← sub_mul, abs_mul, abs_of_pos hc]
      calc |R - x| * c ≤ (1 / 2) * c := by
            exact mul_le_mul_of_nonneg_right herr hc.le
      _ = c / 2 := by ring
    split
    · rename_i h52
      set j := (e - 52).toNat with hj
      have hjz : (j : ℤ) = e - 52 := Int.toNat_of_nonneg (by omega)
      have hden : b * 2 ^ j ≠ 0 := by positivity
      have herr := roundNatNE_err a (b * 2 ^ j) hden
      have hc : (0 : ℚ) < (2 : ℚ) ^ (e - 52) := by positivity
      have hxc : ((a : ℚ) / ((b * 2 ^ j : ℕ) : ℚ)) * (2 : ℚ) ^ (e - 52) =
          (a : ℚ) / b := by
        push_cast
        rw [← hjz]
        rw [zpow_natCast]
        field_simp
        ring
      have := hkey _ _ _ hc herr hxc
      rw [val_mk]
      calc |(roundNatNE a (b * 2 ^ j) : ℚ) * (2 : ℚ) ^ (e - 52) - (a : ℚ) / b| ≤
            (2 : ℚ) ^ (e - 52) / 2 := this
      _ = (2 : ℚ) ^ (e - 53) := by
            rw [div_eq_iff (by norm_num : (2 : ℚ) ≠ 0),
              ← zpow_add_one₀ (by norm_num : (2 : ℚ) ≠ 0),
              show e - 53 + 1 = e - 52 from by omega]
    · rename_i h52
      set j := (52 - e).toNat with hj
      have hjz : (j : ℤ) = 52 - e := Int.toNat_of_nonneg (by omega)
      have herr := roundNatNE_err (a * 2 ^ j) b hb
      have hc : (0 : ℚ) < (2 : ℚ) ^ (e - 52) := by positivity
      have hxc : (((a * 2 ^ j : ℕ) : ℚ) / (b : ℚ)) * (2 : ℚ) ^ (e - 52) =
          (a : ℚ) / b := by
        push_cast
        have h2 : ((2 : ℚ) ^ j) * (2 : ℚ) ^ (e - 52) = 1 := by
          rw [← zpow_natCast (2 : ℚ) j, hjz,
            ← zpow_add₀ (by norm_num : (2 : ℚ) ≠ 0)]
          norm_num
        field_simp
        rw [mul_assoc, h2, mul_one]
      have := hkey _ _ _ hc herr hxc
      rw [val_mk]
      calc |(roundNatNE (a * 2 ^ j) b : ℚ) * (2 : ℚ) ^ (e - 52) - (a : ℚ) / b| ≤
            (2 : ℚ) ^ (e - 52) / 2 := this
      _ = (2 : ℚ) ^ (e - 53) := by
            rw [div_eq_iff (by norm_num : (2 : ℚ) ≠ 0),
              ← zpow_add_one₀ (by norm_num : (2 : ℚ) ≠ 0),
              show e - 53 + 1 = e - 52 from by omega]

theorem val_roundF64_dvd (a b : ℕ) (hb : b ≠ 0) (hdvd : b ∣ a)
    (hlt : a / b < 2 ^ 53) : valF64 (roundF64 a b) = ((a / b : ℕ) : ℚ) := by
  have hb0 : 0 < b := Nat.pos_of_ne_zero hb
  obtain ⟨q, rfl⟩ := hdvd
  have hq : b * q / b = q := Nat.mul_div_cancel_left q hb0
  rw [hq] at hlt ⊢
  have he : exp2Floor (b * q) b ≤ 52 := by
    apply exp2Floor_le _ _ _ hb
    push_cast
    calc (b : ℚ) * q < b * 2 ^ 53 := by
          have hqQ : (q : ℚ) < 2 ^ 53 := by exact_mod_cast hlt
          have hbQ : (0 : ℚ) < b := by exact_mod_cast hb0
          exact mul_lt_mul_of_pos_left hqQ hbQ
    _ = b * 2 ^ (52 + 1) := by norm_num
  unfold roundF64
  split
  · rename_i h0
    have : q = 0 := by
      rcases Nat.mul_eq_zero.mp h0 with h | h
      · omega
      · exact h
    simp [val_mk, this]
  · split
    · rename_i h0 h52
      have he52 : exp2Floor (b * q) b = 52 := le_antisymm he h52
      rw [he52]
      simp only [sub_self, Int.toNat_zero, pow_zero, mul_one]
      rw [roundNatNE_dvd _ _ hb ⟨q, rfl⟩, hq, val_mk]
      norm_num
    · rename_i h0 h52
      set e := exp2Floor (b * q) b with hee
      set j := (52 - e).toNat with hj
      have hjz : (j : ℤ) = 52 - e := Int.toNat_of_nonneg (by omega)
      have hdvd2 : b ∣ b * q * 2 ^ j := ⟨q * 2 ^ j, by ring⟩
      rw [roundNatNE_dvd _ _ hb hdvd2, val_mk]
      have hndiv : b * q * 2 ^ j / b = q * 2 ^ j := by
        rw [mul_assoc]
        exact Nat.mul_div_cancel_left _ hb0
      rw [hndiv]
      push_cast
      rw [mul_assoc, ← zpow_natCast (2 : ℚ) j, hjz,
        ← zpow_add₀ (by norm_num : (2 : ℚ) ≠ 0),
        show 52 - e + (e - 52) = 0 from by omega]
      norm_num

theorem truncF64_eq_floor (x : F64) : truncF64 x = (⌊valF64 x⌋).toNat := by
  unfold truncF64
  split
  · rename_i h
    have hval : valF64 x = ((x.n * 2 ^ (x.e - 52).toNat : ℕ) : ℚ) := by
      rw [val_mk]
      push_cast
      rw [← zpow_natCast (2 : ℚ) (x.e - 52).toNat, Int.toNat_of_nonneg (by omega)]
    rw [hval, Int.floor_natCast, Int.toNat_natCast]
  · rename_i h
    set j := (52 - x.e).toNat with hj
    have hjz : (j : ℤ) = 52 - x.e := Int.toNat_of_nonneg (by omega)
    have hm : (0 : ℕ) < 2 ^ j := Nat.pos_pow_of_pos j (by norm_num)
    have hv : valF64 x = (x.n : ℚ) / ((2 ^ j : ℕ) : ℚ) := by
      rw [val_mk, eq_div_iff (by positivity : ((2 ^ j : ℕ) : ℚ) ≠ 0)]
      push_cast
      rw [mul_assoc, ← zpow_natCast (2 : ℚ) j, hjz,
        ← zpow_add₀ (by norm_num : (2 : ℚ) ≠ 0),
        show x.e - 52 + (52 - x.e) = 0 from by omega]
      norm_num
    have hfloor : ⌊valF64 x⌋ = ((x.n / 2 ^ j : ℕ) : ℤ) := by
      rw [hv, Int.floor_eq_iff]
      constructor
      · push_cast
        rw [le_div_iff₀ (by positivity)]
        exact_mod_cast Nat.div_mul_le_self x.n (2 ^ j)
      · push_cast
        rw [div_lt_iff₀ (by positivity)]
        have := (Nat.div_lt_iff_lt_mul hm).mp (Nat.lt_succ_self (x.n / 2 ^ j))
        exact_mod_cast this
    rw [hfloor, Int.toNat_natCast]

theorem val_pos (x : F64) (hx : x.n ≠ 0) : 0 < valF64 x := by
  rw [valF64]
  have : (0 : ℚ) < (x.n : ℚ) := by exact_mod_cast Nat.pos_of_ne_zero hx
  exact mul_pos this (pow2_pos _)

theorem divF64_ratio (x y : F64) (hy : y.n ≠ 0) :
    ∃ A B : ℕ, divF64 x y = roundF64 A B ∧ B ≠ 0 ∧
      (A : ℚ) = valF64 x / valF64 y * B := by
  have hvy := val_pos y hy
  unfold divF64
  split
  · rename_i hd
    refine ⟨x.n * 2 ^ (x.e - y.e).toNat, y.n, rfl, hy, ?_⟩
    rw [val_mk, val_mk]
    push_cast
    rw [← zpow_natCast (2 : ℚ) (x.e - y.e).toNat, Int.toNat_of_nonneg hd]
    rw [div_mul_eq_mul_div,
      eq_div_iff (by positivity : ((y.n : ℚ) * (2 : ℚ) ^ (y.e - 52)) ≠ 0)]
    rw [show (x.n : ℚ) * (2 : ℚ) ^ (x.e - y.e) * ((y.n : ℚ) * (2 : ℚ) ^ (y.e - 52)) =
        (x.n : ℚ) * (y.n : ℚ) * ((2 : ℚ) ^ (x.e - y.e) * (2 : ℚ) ^ (y.e - 52)) from by
      ring]
    rw [← zpow_add₀ (by norm_num : (2 : ℚ) ≠ 0),
      show x.e - y.e + (y.e - 52) = x.e - 52 from by omega]
    ring
  · rename_i hd
    refine ⟨x.n, y.n * 2 ^ (y.e - x.e).toNat, rfl, by positivity, ?_⟩
    rw [val_mk, val_mk]
    push_cast
    rw [← zpow_natCast (2 : ℚ) (y.e - x.e).toNat, Int.toNat_of_nonneg (by omega)]
    rw [div_mul_eq_mul_div,
      eq_div_iff (by positivity : ((y.n : ℚ) * (2 : ℚ) ^ (y.e - 52)) ≠ 0)]
    rw [show (x.n : ℚ) * (2 : ℚ) ^ (x.e - 52) * ((y.n : ℚ) * (2 : ℚ) ^ (y.e - x.e)) =
        (x.n : ℚ) * (y.n : ℚ) * ((2 : ℚ) ^ (x.e - 52) * (2 : ℚ) ^ (y.e - x.e)) from by
      ring]
    rw [← zpow_add₀ (by norm_num : (2 : ℚ) ≠ 0),
      show x.e - 52 + (y.e - x.e) = y.e - 52 from by omega]
    ring

theorem val_divF64_err (x y : F64) (hy : y.n ≠ 0) (k : ℕ)
    (hk : valF64 x / valF64 y < 2 ^ (k + 1)) :
    |valF64 (divF64 x y) - valF64 x / valF64 y| ≤ (2 : ℚ) ^ ((k : ℤ) - 53) := by
  obtain ⟨A, B, hEq, hB, hA⟩ := divF64_ratio x y hy
  have hvy := val_pos y hy
  have hBQ : (0 : ℚ) < B := by exact_mod_cast Nat.pos_of_ne_zero hB
  have hAB : (A : ℚ) / B = valF64 x / valF64 y := by
    rw [hA]
    field_simp
    ring
  have hlt : (A : ℚ) < (B : ℚ) * 2 ^ (k + 1) := by
    rw [hA]
    calc valF64 x / valF64 y * B < 2 ^ (k + 1) * B :=
          mul_lt_mul_of_pos_right hk hBQ
    _ = B * 2 ^ (k + 1) := by ring
  have hle := exp2Floor_le A B k hB hlt
  have herr := val_roundF64 A B hB
  rw [pow2_eq_zpow] at herr
  rw [hEq, ← hAB]
  calc |valF64 (roundF64 A B) - (A : ℚ) / B| ≤ (2 : ℚ) ^ (exp2Floor A B - 53) := herr
  _ ≤ (2 : ℚ) ^ ((k : ℤ) - 53) := by
        exact zpow_le_zpow_right₀ (by norm_num) (by omega)

theorem val_divF64_exact (x y : F64) (hy : y.n ≠ 0) (c : ℕ)
    (hc : valF64 x = valF64 y * c) (hlt : c < 2 ^ 53) :
    valF64 (divF64 x y) = c := by
  obtain ⟨A, B, hEq, hB, hA⟩ := divF64_ratio x y hy
  have hvy := val_pos y hy
  have hABc : (A : ℚ) = (B : ℚ) * c := by
    rw [hA, hc]
    field_simp
    ring
  have hABn : A = B * c := by exact_mod_cast hABc
  have hq : A / B = c := by
    rw [hABn]
    exact Nat.mul_div_cancel_left c (Nat.pos_of_ne_zero hB)
  rw [hEq, val_roundF64_dvd A B hB ⟨c, hABn⟩ (by rw [hq]; exact hlt), hq]

theorem toF64_val (c : ℕ) (hc : c < 2 ^ 53) : valF64 (toF64 c) = c := by
  unfold toF64
  have := val_roundF64_dvd c 1 one_ne_zero (one_dvd c) (by simpa using hc)
  simpa using this

theorem columnWidthF64_eq (w : ℕ) (hw : w < 2 ^ 32) : columnWidthF64 w = w / 20 := by
  have h20 : valF64 (toF64 20) = 20 := by
    have := toF64_val 20 (by norm_num)
    exact_mod_cast this
  have hwv : valF64 (toF64 w) = w := toF64_val w (by
    calc w < 2 ^ 32 := hw
    _ ≤ 2 ^ 53 := by norm_num)
  have hyn : (toF64 20).n ≠ 0 := by decide
  unfold columnWidthF64
  rw [truncF64_eq_floor]
  by_cases hdvd : 20 ∣ w
  · have hx : valF64 (divF64 (toF64 w) (toF64 20)) = ((w / 20 : ℕ) : ℚ) := by
      apply val_divF64_exact _ _ hyn
      · rw [hwv, h20]
        exact_mod_cast (Nat.mul_div_cancel' hdvd).symm
      · calc w / 20 ≤ w := Nat.div_le_self w 20
        _ < 2 ^ 32 := hw
        _ ≤ 2 ^ 53 := by norm_num
    rw [hx, Int.floor_natCast, Int.toNat_natCast]
  · have herr : |valF64 (divF64 (toF64 w) (toF64 20)) - (w : ℚ) / 20| ≤
        (2 : ℚ) ^ ((27 : ℤ) - 53) := by
      have hk : valF64 (toF64 w) / valF64 (toF64 20) < 2 ^ (27 + 1) := by
        rw [hwv, h20, div_lt_iff₀ (by norm_num : (0 : ℚ) < 20)]
        calc (w : ℚ) < 2 ^ 32 := by exact_mod_cast hw
        _ ≤ 2 ^ (27 + 1) * 20 := by norm_num
      have := val_divF64_err (toF64 w) (toF64 20) hyn 27 hk
      rw [hwv, h20] at this
      exact_mod_cast this
    have h226 : (2 : ℚ) ^ ((27 : ℤ) - 53) = 1 / 67108864 := by
      norm_num
    rw [h226] at herr
    obtain ⟨hlo, hhi⟩ := abs_le.mp herr
    have hsplit : (w : ℚ) / 20 = ((w / 20 : ℕ) : ℚ) + ((w % 20 : ℕ) : ℚ) / 20 := by
      rw [div_eq_iff (by norm_num : (20 : ℚ) ≠ 0), add_mul,
        div_mul_cancel₀ _ (by norm_num : (20 : ℚ) ≠ 0)]
      exact_mod_cast (Nat.div_add_mod' w 20).symm
    have hr1 : (1 : ℚ) ≤ ((w % 20 : ℕ) : ℚ) := by
      have : 1 ≤ w % 20 := by
        rcases Nat.eq_zero_or_pos (w % 20) with h | h
        · exact absurd (Nat.dvd_of_mod_eq_zero h) hdvd
        · exact h
      exact_mod_cast this
    have hr19 : ((w % 20 : ℕ) : ℚ) ≤ 19 := by
      have : w % 20 ≤ 19 := by omega
      exact_mod_cast this
    have hfl : ⌊valF64 (divF64 (toF64 w) (toF64 20))⌋ = ((w / 20 : ℕ) : ℤ) := by
      rw [Int.floor_eq_iff]
      constructor
      · have hq : ((w / 20 : ℕ) : ℚ) ≤ valF64 (divF64 (toF64 w) (toF64 20)) := by
          rw [hsplit] at hlo
          linarith
        exact_mod_cast hq
      · have hq : valF64 (divF64 (toF64 w) (toF64 20)) < ((w / 20 : ℕ) : ℚ) + 1 := by
          rw [hsplit] at hhi
          linarith
        exact_mod_cast hq
    rw [hfl, Int.toNat_natCast]

theorem columnWidthF64_mul20_le (w : ℕ) (hw : w < 2 ^ 32) :
    columnWidthF64 w * 20 ≤ w := by
  rw [columnWidthF64_eq w hw]
  exact Nat.div_mul_le_self w 20

/-! ## Lemmas and claims: `set_size` -/

/-- Derived layout is consistent after any `set_size` with a `u32` width. -/
theorem set_size_layoutConsistent (s : World) (w h : ℕ) (hw : w < 2 ^ 32) :
    (s.set_size w h).layoutConsistent := by
  unfold World.layoutConsistent World.set_size
  simp only
  rw [columnWidthF64_eq w hw]
  exact ⟨rfl, rfl⟩

/-- C9: `set_size` is idempotent (a second call with the same arguments is a
no-op) and modifies only the dimension/layout fields: `roll_counts`,
`winning_roll_key`, `losing_roll_key` and the `colors` palette are unchanged
by any call to `set_size`. -/
theorem claimC9 (s : World) (w h : ℕ) :
    (s.set_size w h).set_size w h = s.set_size w h ∧
    (s.set_size w h).roll_counts = s.roll_counts ∧
    (s.set_size w h).winning_roll_key = s.winning_roll_key ∧
    (s.set_size w h).losing_roll_key = s.losing_roll_key ∧
    (s.set_size w h).colors = s.colors :=
  ⟨rfl, rfl, rfl, rfl, rfl⟩

/-- C7 counterexample: `set_size` with `width = 0` completes normally (there
is no integer division by zero in `set_size`: `column_width` is derived by
`f64` division by the constant `20.0`, and `0.0 / 20.0 = 0.0`); the result is
the fully defined state with `column_width = 0` and `offset = 0`. -/
theorem claimC7_cex :
    (World.new 100 100).set_size 0 5 =
      { roll_counts := List.replicate 20 0
        winning_roll_key := none
        losing_roll_key := none
        width := 0
        height := 5
        column_width := 0
        offset := 0
        colors := (List.range 20).map (fun i => [0, 9 * (i + 1), 9 * (i + 1), 255]) } := by
  decide

/-- C7 (amended): calling `set_size` with `width == 0` is not a failure of any
kind: it completes normally on every state, storing `width = 0`,
`column_width = 0` and `offset = 0` (the division in the `column_width`
derivation is a float division by the constant `20.0`, which cannot divide by
zero; the actual remainder-by-zero failure happens later, in `update`'s
normalization, when `column_width = 0`). -/
theorem claimC7 (s : World) (h : ℕ) :
    s.set_size 0 h =
      { s with width := 0, height := h, column_width := 0, offset := 0 } := by
  have h0 : columnWidthF64 0 = 0 := by decide
  unfold World.set_size
  rw [h0]

/-- C3 counterexample: at `width = 22` (any height), `set_size` yields
`column_width = 1` and `left_margin = 1`, so `left_margin < column_width`
fails. -/
theorem claimC3_cex :
    ((World.new 100 100).set_size 22 7).column_width = 1 ∧
    ((World.new 100 100).set_size 22 7).offset = 1 ∧
    ¬((World.new 100 100).set_size 22 7).offset <
        ((World.new 100 100).set_size 22 7).column_width := by
  decide

/-- C3 (amended): for every width with `20 ≤ width < 2 ^ 32` and every
height, after `set_size(width, height)`: `column_width = ⌊width / 20⌋` and
`left_margin + column_width × 20 ≤ width`; the margin satisfies only
`left_margin ≤ 9` (it is `(width mod 20) / 2`), and `left_margin <
column_width` can fail (e.g. at `width = 22`). -/
theorem claimC3 (s : World) (w h : ℕ) (hw20 : 20 ≤ w) (hw : w < 2 ^ 32) :
    (s.set_size w h).column_width = w / 20 ∧
    (s.set_size w h).offset + (s.set_size w h).column_width * 20 ≤ w ∧
    (s.set_size w h).offset ≤ 9 := by
  unfold World.set_size
  simp only
  rw [columnWidthF64_eq w hw]
  omega

/-- Witness for C3 at `width = 400`, `height = 100`. -/
theorem claimC3_witness :
    ((World.new 1 1).set_size 400 100).column_width = 400 / 20 ∧
    ((World.new 1 1).set_size 400 100).offset +
        ((World.new 1 1).set_size 400 100).column_width * 20 ≤ 400 ∧
    ((World.new 1 1).set_size 400 100).offset ≤ 9 :=
  claimC3 (World.new 1 1) 400 100 (by norm_num) (by norm_num)

/-! ## Lemmas: roll accumulation -/

theorem sum_set_succ (l : List ℕ) (i : ℕ) (hi : i < l.length) :
    (l.set i (l.getD i 0 + 1)).sum = l.sum + 1 := by
  induction l generalizing i with
  | nil => simp at hi
  | cons a t ih =>
    cases i with
    | zero =>
      simp [List.set]
      omega
    | succ j =>
      simp only [List.set, List.getD_cons_succ, List.sum_cons]
      have hj : j < t.length := by simpa using hi
      rw [ih j hj]
      omega

theorem rollAccum_sum (rolls : List ℕ) (counts : List ℕ)
    (hv : ∀ r ∈ rolls, 1 ≤ r ∧ r ≤ 20) (hlen : counts.length = 20) :
    ∃ A, rollAccum rolls counts = some A ∧ A.length = 20 ∧
      A.sum = counts.sum + rolls.length := by
  induction rolls generalizing counts with
  | nil => exact ⟨counts, rfl, hlen, by simp⟩
  | cons r rs ih =>
    have hr := hv r (List.mem_cons_self r rs)
    have hidx : (r + 2 ^ 64 - 1) % 2 ^ 64 = r - 1 := by omega
    have hlt : r - 1 < counts.length := by omega
    unfold rollAccum
    rw [hidx, if_pos hlt]
    obtain ⟨A, hA, hAl, hAs⟩ := ih (counts.set (r - 1) (counts.getD (r - 1) 0 + 1))
      (fun x hx => hv x (List.mem_cons_of_mem _ hx))
      (by rw [List.length_set]; exact hlen)
    refine ⟨A, hA, hAl, ?_⟩
    rw [hAs, sum_set_succ counts (r - 1) hlt]
    simp only [List.length_cons]
    omega

theorem rollAccum_replicate_one (n : ℕ) (counts : List ℕ)
    (h : 0 < counts.length) :
    rollAccum (List.replicate n 1) counts =
      some (counts.set 0 (counts.getD 0 0 + n)) := by
  induction n generalizing counts with
  | zero =>
    cases counts with
    | nil => simp at h
    | cons c t => simp [rollAccum]
  | succ n ih =>
    cases counts with
    | nil => simp at h
    | cons c t =>
      rw [List.replicate_succ]
      show rollAccum (1 :: List.replicate n 1) (c :: t) = _
      unfold rollAccum
      norm_num
      rw [ih ((c + 1) :: t) (by simp)]
      simp only [List.set, List.getD_cons_zero]
      congr 2
      omega

/-! ## Lemmas: the extreme-finding scan -/

theorem foldl_max_eq (l : List ℕ) (a : ℕ) : l.foldl max a = max a (listMax l) := by
  induction l generalizing a with
  | nil => simp [listMax]
  | cons c t ih =>
    simp only [List.foldl_cons, listMax, List.foldr_cons]
    rw [ih (max a c)]
    unfold listMax
    omega

theorem foldl_min_eq (l : List ℕ) (a : ℕ) (ha : a ≤ u64Max) :
    l.foldl min a = min a (listMin l) := by
  induction l generalizing a with
  | nil =>
    simp only [List.foldl_nil, listMin, List.foldr_nil]
    omega
  | cons c t ih =>
    simp only [List.foldl_cons, listMin, List.foldr_cons]
    rw [ih (min a c) (by omega)]
    unfold listMin
    omega

theorem le_foldl_max (l : List ℕ) (a d : ℕ) (hd : d ∈ l) : d ≤ l.foldl max a := by
  induction l generalizing a with
  | nil => simp at hd
  | cons c t ih =>
    rcases List.mem_cons.mp hd with rfl | hmem
    · simp only [List.foldl_cons]
      calc d ≤ max a d := le_max_right a d
      _ ≤ t.foldl max (max a d) := by
        rw [foldl_max_eq]
        exact le_max_left _ _
    · exact ih (max a c) hmem

theorem foldl_min_le_init (l : List ℕ) (a : ℕ) : l.foldl min a ≤ a := by
  induction l generalizing a with
  | nil => exact le_refl a
  | cons c t ih =>
    simp only [List.foldl_cons]
    calc t.foldl min (min a c) ≤ min a c := ih (min a c)
    _ ≤ a := min_le_left a c

theorem foldl_min_le (l : List ℕ) (a d : ℕ) (hd : d ∈ l) : l.foldl min a ≤ d := by
  induction l generalizing a with
  | nil => simp at hd
  | cons c t ih =>
    rcases List.mem_cons.mp hd with rfl | hmem
    · simp only [List.foldl_cons]
      calc t.foldl min (min a d) ≤ min a d := foldl_min_le_init t (min a d)
      _ ≤ d := min_le_right a d
    · exact ih (min a c) hmem

theorem foldl_max_of_le (l : List ℕ) (a : ℕ) (h : ∀ d ∈ l, d ≤ a) :
    l.foldl max a = a := by
  induction l with
  | nil => rfl
  | cons c t ih =>
    simp only [List.foldl_cons]
    rw [show max a c = a from by
      have := h c (List.mem_cons_self c t)
      omega]
    exact ih fun d hd => h d (List.mem_cons_of_mem c hd)

theorem foldl_min_of_le (l : List ℕ) (a : ℕ) (h : ∀ d ∈ l, a ≤ d) :
    l.foldl min a = a := by
  induction l with
  | nil => rfl
  | cons c t ih =>
    simp only [List.foldl_cons]
    rw [show min a c = a from by
      have := h c (List.mem_cons_self c t)
      omega]
    exact ih fun d hd => h d (List.mem_cons_of_mem c hd)

theorem scanLoop_max (k : ℕ) (rest : List ℕ) (mn mx : ℕ) (w l : Option ℕ) :
    (scanLoop k rest mn mx w l).2.1 = rest.foldl max mx := by
  induction rest generalizing k mn mx w l with
  | nil => rfl
  | cons c t ih =>
    unfold scanLoop
    simp only [List.foldl_cons]
    rw [ih]
    congr 1
    split <;> rename_i h <;> omega

theorem scanLoop_min (k : ℕ) (rest : List ℕ) (mn mx : ℕ) (w l : Option ℕ) :
    (scanLoop k rest mn mx w l).1 = rest.foldl min mn := by
  induction rest generalizing k mn mx w l with
  | nil => rfl
  | cons c t ih =>
    unfold scanLoop
    simp only [List.foldl_cons]
    rw [ih]
    congr 1
    split <;> rename_i h <;> omega

theorem scanLoop_win_frozen (rest : List ℕ) (k mn mx : ℕ) (w l : Option ℕ)
    (h : ∀ c ∈ rest, c ≤ mx) :
    (scanLoop k rest mn mx w l).2.2.1 = w := by
  induction rest generalizing k mn mx w l with
  | nil => rfl
  | cons c t ih =>
    unfold scanLoop
    have hc : ¬mx < c := by
      have := h c (List.mem_cons_self c t)
      omega
    simp only [if_neg hc]
    exact ih _ _ _ _ _ fun d hd => h d (List.mem_cons_of_mem c hd)

theorem scanLoop_lose_frozen (rest : List ℕ) (k mn mx : ℕ) (w l : Option ℕ)
    (h : ∀ c ∈ rest, mn ≤ c) :
    (scanLoop k rest mn mx w l).2.2.2 = l := by
  induction rest generalizing k mn mx w l with
  | nil => rfl
  | cons c t ih =>
    unfold scanLoop
    have hc : ¬c < mn := by
      have := h c (List.mem_cons_self c t)
      omega
    simp only [if_neg hc]
    exact ih _ _ _ _ _ fun d hd => h d (List.mem_cons_of_mem c hd)

theorem scanLoop_win_argmax (rest : List ℕ) (k mn mx : ℕ) (w l : Option ℕ)
    (h : ∃ c ∈ rest, mx < c) :
    ∃ j, (scanLoop k rest mn mx w l).2.2.1 = some (k + j) ∧ j < rest.length ∧
      rest.getD j 0 = rest.foldl max mx ∧
      ∀ i < j, rest.getD i 0 < rest.foldl max mx := by
  induction rest generalizing k mn mx w l with
  | nil => simp at h
  | cons c t ih =>
    unfold scanLoop
    simp only [List.foldl_cons]
    by_cases hc : mx < c
    · simp only [if_pos hc]
      have hinit : max mx c = c := by omega
      rw [hinit]
      by_cases ht : ∃ d ∈ t, c < d
      · obtain ⟨j, hwin, hjlen, hgd, hlt⟩ := ih (k + 1) (if c < mn then c else mn)
          c (some k) (if c < mn then some k else l) ht
        refine ⟨j + 1, ?_, by simpa using Nat.succ_lt_succ hjlen, ?_, ?_⟩
        · rw [hwin]
          congr 1
          omega
        · simpa using hgd
        · intro i hi
          cases i with
          | zero =>
            obtain ⟨d, hd, hcd⟩ := ht
            simp only [List.getD_cons_zero]
            calc c < d := hcd
            _ ≤ t.foldl max c := le_foldl_max t c d hd
          | succ i2 =>
            simp only [List.getD_cons_succ]
            exact hlt i2 (by omega)
      · push_neg at ht
        rw [foldl_max_of_le t c ht]
        refine ⟨0, ?_, by simp, by simp, by omega⟩
        rw [scanLoop_win_frozen t (k + 1) _ c (some k) _ ht]
        norm_num
    · simp only [if_neg hc]
      have hinit : max mx c = mx := by omega
      rw [hinit]
      have ht : ∃ d ∈ t, mx < d := by
        obtain ⟨d, hd, hmxd⟩ := h
        rcases List.mem_cons.mp hd with rfl | hmem
        · omega
        · exact ⟨d, hmem, hmxd⟩
      obtain ⟨j, hwin, hjlen, hgd, hlt⟩ := ih (k + 1) (if c < mn then c else mn)
        mx w (if c < mn then some k else l) ht
      refine ⟨j + 1, ?_, by simpa using Nat.succ_lt_succ hjlen, ?_, ?_⟩
      · rw [hwin]
        congr 1
        omega
      · simpa using hgd
      · intro i hi
        cases i with
        | zero =>
          obtain ⟨d, hd, hmxd⟩ := ht
          simp only [List.getD_cons_zero]
          calc c ≤ mx := by omega
          _ < d := hmxd
          _ ≤ t.foldl max mx := le_foldl_max t mx d hd
        | succ i2 =>
          simp only [List.getD_cons_succ]
          exact hlt i2 (by omega)

theorem scanLoop_lose_argmin (rest : List ℕ) (k mn mx : ℕ) (w l : Option ℕ)
    (h : ∃ c ∈ rest, c < mn) :
    ∃ j, (scanLoop k rest mn mx w l).2.2.2 = some (k + j) ∧ j < rest.length ∧
      rest.getD j 0 = rest.foldl min mn ∧
      ∀ i < j, rest.foldl min mn < rest.getD i 0 := by
  induction rest generalizing k mn mx w l with
  | nil => simp at h
  | cons c t ih =>
    unfold scanLoop
    simp only [List.foldl_cons]
    by_cases hc : c < mn
    · simp only [if_pos hc]
      have hinit : min mn c = c := by omega
      rw [hinit]
      by_cases ht : ∃ d ∈ t, d < c
      · obtain ⟨j, hlose, hjlen, hgd, hlt⟩ := ih (k + 1) c
          (if mx < c then c else mx) (if mx < c then some k else w) (some k) ht
        refine ⟨j + 1, ?_, by simpa using Nat.succ_lt_succ hjlen, ?_, ?_⟩
        · rw [hlose]
          congr 1
          omega
        · simpa using hgd
        · intro i hi
          cases i with
          | zero =>
            obtain ⟨d, hd, hcd⟩ := ht
            simp only [List.getD_cons_zero]
            calc t.foldl min c ≤ d := foldl_min_le t c d hd
            _ < c := hcd
          | succ i2 =>
            simp only [List.getD_cons_succ]
            exact hlt i2 (by omega)
      · push_neg at ht
        rw [foldl_min_of_le t c ht]
        refine ⟨0, ?_, by simp, by simp, by omega⟩
        rw [scanLoop_lose_frozen t (k + 1) c _ _ (some k) ht]
        norm_num
    · simp only [if_neg hc]
      have hinit : min mn c = mn := by omega
      rw [hinit]
      have ht : ∃ d ∈ t, d < mn := by
        obtain ⟨d, hd, hmnd⟩ := h
        rcases List.mem_cons.mp hd with rfl | hmem
        · omega
        · exact ⟨d, hmem, hmnd⟩
      obtain ⟨j, hlose, hjlen, hgd, hlt⟩ := ih (k + 1) mn
        (if mx < c then c else mx) (if mx < c then some k else w) l ht
      refine ⟨j + 1, ?_, by simpa using Nat.succ_lt_succ hjlen, ?_, ?_⟩
      · rw [hlose]
        congr 1
        omega
      · simpa using hgd
      · intro i hi
        cases i with
        | zero =>
          obtain ⟨d, hd, hmnd⟩ := ht
          simp only [List.getD_cons_zero]
          calc t.foldl min mn ≤ d := foldl_min_le t mn d hd
          _ < mn := hmnd
          _ ≤ c := by omega
        | succ i2 =>
          simp only [List.getD_cons_succ]
          exact hlt i2 (by omega)

theorem getD_replicate_eq (n c i : ℕ) (h : i < n) :
    (List.replicate n c).getD i 0 = c := by
  induction n generalizing i with
  | zero => omega
  | succ m ih =>
    rw [List.replicate_succ]
    cases i with
    | zero => rfl
    | succ i2 =>
      simp only [List.getD_cons_succ]
      exact ih i2 (by omega)

theorem exists_mem_gt_of_lt_listMax (l : List ℕ) (b : ℕ) (h : b < listMax l) :
    ∃ c ∈ l, b < c := by
  induction l with
  | nil =>
    unfold listMax at h
    simp at h
  | cons c t ih =>
    unfold listMax at h
    simp only [List.foldr_cons] at h
    rcases Nat.lt_or_ge b c with hbc | hbc
    · exact ⟨c, List.mem_cons_self c t, hbc⟩
    · have : b < listMax t := by
        unfold listMax
        omega
      obtain ⟨d, hd, hbd⟩ := ih this
      exact ⟨d, List.mem_cons_of_mem c hd, hbd⟩

theorem exists_mem_lt_of_listMin_lt (l : List ℕ) (b : ℕ) (hb : b ≤ u64Max)
    (h : listMin l < b) : ∃ c ∈ l, c < b := by
  induction l with
  | nil =>
    unfold listMin at h
    simp only [List.foldr_nil] at h
    omega
  | cons c t ih =>
    unfold listMin at h
    simp only [List.foldr_cons] at h
    rcases Nat.lt_or_ge c b with hbc | hbc
    · exact ⟨c, List.mem_cons_self c t, hbc⟩
    · have : listMin t < b := by
        unfold listMin
        omega
      obtain ⟨d, hd, hbd⟩ := ih this
      exact ⟨d, List.mem_cons_of_mem c hd, hbd⟩

theorem listMin_le_u64Max (l : List ℕ) : listMin l ≤ u64Max := by
  induction l with
  | nil => exact le_refl _
  | cons c t ih =>
    unfold listMin at ih ⊢
    simp only [List.foldr_cons]
    omega

/-- C5: after the extreme-finding pass (run inside `update` on the
post-accumulation counters, so the maximum is positive and the minimum is
below the `u64::MAX` sentinel), `winning_roll_key` is the smallest index
attaining the maximum count and `losing_roll_key` is the smallest index
attaining the minimum count (strict comparisons; ties keep the earliest-seen
extreme); in particular, when all 20 counts are equal both keys resolve to
index 0. -/
theorem claimC5 (counts : List ℕ) (w0 l0 : Option ℕ) (hlen : counts.length = 20)
    (hmax : 0 < listMax counts) (hmin : listMin counts < u64Max) :
    (∃ j, (scanLoop 0 counts u64Max 0 w0 l0).2.2.1 = some j ∧ j < 20 ∧
      counts.getD j 0 = listMax counts ∧
      ∀ i < j, counts.getD i 0 < listMax counts) ∧
    (∃ j, (scanLoop 0 counts u64Max 0 w0 l0).2.2.2 = some j ∧ j < 20 ∧
      counts.getD j 0 = listMin counts ∧
      ∀ i < j, listMin counts < counts.getD i 0) ∧
    (∀ c, counts = List.replicate 20 c →
      (scanLoop 0 counts u64Max 0 w0 l0).2.2.1 = some 0 ∧
      (scanLoop 0 counts u64Max 0 w0 l0).2.2.2 = some 0) := by
  have hM : counts.foldl max 0 = listMax counts := by
    rw [foldl_max_eq]
    omega
  have hN : counts.foldl min u64Max = listMin counts := by
    rw [foldl_min_eq counts u64Max (le_refl _)]
    have := listMin_le_u64Max counts
    omega
  obtain ⟨jw, hwin, hjwl, hwgd, hwlt⟩ :=
    scanLoop_win_argmax counts 0 u64Max 0 w0 l0
      (exists_mem_gt_of_lt_listMax counts 0 hmax)
  obtain ⟨jl, hlose, hjll, hlgd, hllt⟩ :=
    scanLoop_lose_argmin counts 0 u64Max 0 w0 l0
      (exists_mem_lt_of_listMin_lt counts u64Max (le_refl _) hmin)
  rw [hM] at hwgd hwlt
  rw [hN] at hlgd hllt
  rw [Nat.zero_add] at hwin hlose
  have hwfull : ∃ j, (scanLoop 0 counts u64Max 0 w0 l0).2.2.1 = some j ∧ j < 20 ∧
      counts.getD j 0 = listMax counts ∧
      ∀ i < j, counts.getD i 0 < listMax counts :=
    ⟨jw, hwin, by omega, hwgd, hwlt⟩
  have hlfull : ∃ j, (scanLoop 0 counts u64Max 0 w0 l0).2.2.2 = some j ∧ j < 20 ∧
      counts.getD j 0 = listMin counts ∧
      ∀ i < j, listMin counts < counts.getD i 0 :=
    ⟨jl, hlose, by omega, hlgd, hllt⟩
  refine ⟨hwfull, hlfull, ?_⟩
  intro c hrep
  constructor
  · rw [hwin]
    congr 1
    by_contra hne
    have hjw0 : 0 < jw := Nat.pos_of_ne_zero hne
    have h0 := hwlt 0 hjw0
    rw [hrep] at h0 hwgd
    rw [getD_replicate_eq 20 c 0 (by omega)] at h0
    rw [getD_replicate_eq 20 c jw (by omega)] at hwgd
    omega
  · rw [hlose]
    congr 1
    by_contra hne
    have hjl0 : 0 < jl := Nat.pos_of_ne_zero hne
    have h0 := hllt 0 hjl0
    rw [hrep] at h0 hlgd
    rw [getD_replicate_eq 20 c 0 (by omega)] at h0
    rw [getD_replicate_eq 20 c jl (by omega)] at hlgd
    omega

/-- Witness for C5 on the counts `[1, 2, …, 20]` (max 20 first attained at
index 19, min 1 first attained at index 0). -/
theorem claimC5_witness :
    (∃ j, (scanLoop 0 (List.range 20 |>.map (· + 1)) u64Max 0 none none).2.2.1 =
        some j ∧ j < 20 ∧
      (List.range 20 |>.map (· + 1)).getD j 0 =
        listMax (List.range 20 |>.map (· + 1)) ∧
      ∀ i < j, (List.range 20 |>.map (· + 1)).getD i 0 <
        listMax (List.range 20 |>.map (· + 1))) ∧
    (∃ j, (scanLoop 0 (List.range 20 |>.map (· + 1)) u64Max 0 none none).2.2.2 =
        some j ∧ j < 20 ∧
      (List.range 20 |>.map (· + 1)).getD j 0 =
        listMin (List.range 20 |>.map (· + 1)) ∧
      ∀ i < j, listMin (List.range 20 |>.map (· + 1)) <
        (List.range 20 |>.map (· + 1)).getD i 0) ∧
    (∀ c, (List.range 20 |>.map (· + 1)) = List.replicate 20 c →
      (scanLoop 0 (List.range 20 |>.map (· + 1)) u64Max 0 none none).2.2.1 =
        some 0 ∧
      (scanLoop 0 (List.range 20 |>.map (· + 1)) u64Max 0 none none).2.2.2 =
        some 0) :=
  claimC5 (List.range 20 |>.map (· + 1)) none none (by decide) (by decide)
    (by decide)

/-! ## Lemmas: `update` structure -/

theorem update_unfold (rng : ℕ → ℕ) (s : World) (A : List ℕ)
    (hacc : rollAccum ((List.range 10000).map rng) s.roll_counts = some A) :
    World.update rng s =
      (normalizePhase s.column_width (s.column_width * s.height)
          (A.foldl max 0) A).map fun counts2 =>
        { s with
          roll_counts := counts2
          winning_roll_key :=
            (scanLoop 0 A u64Max 0 s.winning_roll_key s.losing_roll_key).2.2.1
          losing_roll_key :=
            (scanLoop 0 A u64Max 0 s.winning_roll_key s.losing_roll_key).2.2.2 } := by
  unfold World.update
  rw [hacc]
  simp only [Option.some_bind]
  rw [scanLoop_max]

theorem normalizePhase_cases (cw m maxF : ℕ) (counts L : List ℕ)
    (h : normalizePhase cw m maxF counts = some L) :
    (maxF ≤ m ∧ L = counts) ∨
    (m < maxF ∧ cw ≠ 0 ∧
      L = counts.map
        (fun c => c - min (rollAdjF64 (maxF - m - (maxF - m) % cw) c m) c)) := by
  unfold normalizePhase at h
  split at h
  · rename_i htrig
    split at h
    · exact absurd h (by simp)
    · rename_i hcw
      right
      exact ⟨htrig, hcw, (Option.some.inj h).symm⟩
  · rename_i htrig
    left
    exact ⟨by omega, (Option.some.inj h).symm⟩

theorem sum_map_le (l : List ℕ) (f : ℕ → ℕ) (h : ∀ c, f c ≤ c) :
    (l.map f).sum ≤ l.sum := by
  induction l with
  | nil => simp
  | cons c t ih =>
    simp only [List.map_cons, List.sum_cons]
    have := h c
    omega

theorem getD_map_f0 (l : List ℕ) (f : ℕ → ℕ) (h0 : f 0 = 0) (i : ℕ) :
    (l.map f).getD i 0 = f (l.getD i 0) := by
  induction l generalizing i with
  | nil => simp [h0]
  | cons c t ih =>
    cases i with
    | zero => rfl
    | succ i2 =>
      simp only [List.map_cons, List.getD_cons_succ]
      exact ih i2

/-- C4: given any prior state (20 counters) and any outcome sequence of the
random source (each roll in `[1, 20]`), the accumulation phase of one
`update()` call succeeds and increases `sum(counts)` by exactly 10000, and
whenever `update` returns a state, the normalization phase has not increased
the sum beyond the accumulated one. -/
theorem claimC4 (s : World) (rng : ℕ → ℕ)
    (hr : ∀ n, 1 ≤ rng n ∧ rng n ≤ 20)
    (hlen : s.roll_counts.length = 20) :
    ∃ A, rollAccum ((List.range 10000).map rng) s.roll_counts = some A ∧
      A.sum = s.roll_counts.sum + 10000 ∧
      ∀ s2, World.update rng s = some s2 → s2.roll_counts.sum ≤ A.sum := by
  obtain ⟨A, hA, hAl, hAs⟩ := rollAccum_sum ((List.range 10000).map rng)
    s.roll_counts (by
      intro r hrm
      obtain ⟨n, _, rfl⟩ := List.mem_map.mp hrm
      exact hr n) hlen
  refine ⟨A, hA, by simpa using hAs, ?_⟩
  intro s2 hs2
  rw [update_unfold rng s A hA] at hs2
  obtain ⟨L, hL, hs2L⟩ := Option.map_eq_some'.mp hs2
  have hcounts : s2.roll_counts = L := by rw [← hs2L]
  rcases normalizePhase_cases _ _ _ _ _ hL with ⟨_, rfl⟩ | ⟨_, _, rfl⟩
  · rw [hcounts]
  · rw [hcounts]
    exact sum_map_le A _ fun c => by omega

/-- Witness for C4: the all-zero 400×100 state under the constant face-1
random source. -/
theorem claimC4_witness :
    ∃ A, rollAccum ((List.range 10000).map fun _ => 1)
        (World.new 400 100).roll_counts = some A ∧
      A.sum = (World.new 400 100).roll_counts.sum + 10000 ∧
      ∀ s2, World.update (fun _ => 1) (World.new 400 100) = some s2 →
        s2.roll_counts.sum ≤ A.sum :=
  claimC4 (World.new 400 100) (fun _ => 1)
    (fun n => ⟨by norm_num, by norm_num⟩) (by decide)

/-- C10: on any state with `column_width = 0` (any width below 20 yields
this) and any outcome of the random source, `update()` panics in the
normalization phase: `max_allowed = 0 * height = 0`, the accumulated maximum
is positive, so normalization triggers and `adjustment % column_width` is a
remainder by zero.  The failure is in `update`; `set_size` itself completed
normally (claim C7). -/
theorem claimC10 (s : World) (rng : ℕ → ℕ)
    (hcw : s.column_width = 0)
    (hlen : s.roll_counts.length = 20)
    (hr : ∀ n, 1 ≤ rng n ∧ rng n ≤ 20) :
    World.update rng s = none := by
  obtain ⟨A, hA, hAl, hAs⟩ := rollAccum_sum ((List.range 10000).map rng)
    s.roll_counts (by
      intro r hrm
      obtain ⟨n, _, rfl⟩ := List.mem_map.mp hrm
      exact hr n) hlen
  rw [update_unfold rng s A hA]
  have hsum : 0 < A.sum := by
    simp only [List.length_map, List.length_range] at hAs
    omega
  have hex : ∃ c ∈ A, 0 < c := by
    by_contra hall
    push_neg at hall
    have : A.sum = 0 := List.sum_eq_zero fun x hx => by
      have := hall x hx
      omega
    omega
  obtain ⟨c, hc, hcpos⟩ := hex
  have hmax : 0 < A.foldl max 0 := lt_of_lt_of_le hcpos (le_foldl_max A 0 c hc)
  unfold normalizePhase
  rw [hcw]
  simp only [Nat.zero_mul]
  rw [if_pos hmax]
  simp

/-- Witness for C10: `World.new 10 10` has `column_width = 0` (width 10 < 20)
and `update` with the constant face-1 source panics (`none`). -/
theorem claimC10_witness :
    World.update (fun _ => 1) (World.new 10 10) = none :=
  claimC10 (World.new 10 10) (fun _ => 1) (by decide) (by decide)
    (fun n => ⟨by norm_num, by norm_num⟩)

theorem mapConst1 :
    (List.range 10000).map (fun _ : ℕ => 1) = List.replicate 10000 1 := by
  rw [List.map_const', List.length_range]

theorem accC1 :
    rollAccum ((List.range 10000).map fun _ => 1) worldC1cex.roll_counts =
      some (10003 :: List.replicate 19 0) := by
  rw [mapConst1, rollAccum_replicate_one 10000 _ (by decide)]
  decide

theorem updC1 :
    World.update (fun _ => 1) worldC1cex =
      some { worldC1cex with
        roll_counts := 10003 :: List.replicate 19 0
        winning_roll_key := some 0
        losing_roll_key := some 1 } := by
  rw [update_unfold _ _ _ accC1]
  decide

/-- C1 counterexample: `worldC1cex` has `column_width × canvas_height
= 10000 > 0`, yet after one `update` (all rolls landing on face 1) the
maximum count is 10003 > 10000: the overflow (3) is below `column_width`
(5), the adjustment rounds down to 0, and normalization leaves the counter
over display capacity. -/
theorem claimC1_cex :
    worldC1cex.column_width * worldC1cex.height = 10000 ∧
    World.update (fun _ => 1) worldC1cex =
      some { worldC1cex with
        roll_counts := 10003 :: List.replicate 19 0
        winning_roll_key := some 0
        losing_roll_key := some 1 } ∧
    ¬listMax (10003 :: List.replicate 19 0) ≤ 10000 :=
  ⟨by decide, updC1, by decide⟩

/-- C1 (amended): after `update()` returns, every counter is ≥ 0 and no
counter exceeds its post-accumulation value (the normalization phase never
increases a counter) — but `max(counts) ≤ column_width × canvas_height` can
fail: when `max_found - max_allowed < column_width` the adjustment rounds
down to 0 and the maximum stays above capacity. -/
theorem claimC1 (s : World) (rng : ℕ → ℕ) (s2 : World) (A : List ℕ)
    (hacc : rollAccum ((List.range 10000).map rng) s.roll_counts = some A)
    (hupd : World.update rng s = some s2) :
    (∀ i, 0 ≤ s2.roll_counts.getD i 0) ∧
    (∀ i, s2.roll_counts.getD i 0 ≤ A.getD i 0) := by
  refine ⟨fun i => Nat.zero_le _, fun i => ?_⟩
  rw [update_unfold rng s A hacc] at hupd
  obtain ⟨L, hL, hs2L⟩ := Option.map_eq_some'.mp hupd
  have hcounts : s2.roll_counts = L := by rw [← hs2L]
  rcases normalizePhase_cases _ _ _ _ _ hL with ⟨_, rfl⟩ | ⟨_, _, rfl⟩
  · rw [hcounts]
  · rw [hcounts, getD_map_f0 _ _ (by simp) i]
    omega

/-- Witness for C1 on `worldC1cex` under the constant face-1 source. -/
theorem claimC1_witness :
    (∀ i, 0 ≤ ({ worldC1cex with
        roll_counts := 10003 :: List.replicate 19 0
        winning_roll_key := some 0
        losing_roll_key := some 1 } : World).roll_counts.getD i 0) ∧
    (∀ i, ({ worldC1cex with
        roll_counts := 10003 :: List.replicate 19 0
        winning_roll_key := some 0
        losing_roll_key := some 1 } : World).roll_counts.getD i 0 ≤
      (10003 :: List.replicate 19 0).getD i 0) :=
  claimC1 worldC1cex (fun _ => 1)
    { worldC1cex with
      roll_counts := 10003 :: List.replicate 19 0
      winning_roll_key := some 0
      losing_roll_key := some 1 }
    (10003 :: List.replicate 19 0) accC1 updC1

theorem accC2 :
    rollAccum ((List.range 10000).map fun _ => 1) worldC2cex.roll_counts =
      some (4559884074 :: 359526689 :: List.replicate 18 0) := by
  rw [mapConst1, rollAccum_replicate_one 10000 _ (by decide)]
  decide

theorem updC2 :
    World.update (fun _ => 1) worldC2cex =
      some { worldC2cex with
        roll_counts := 1901475993 :: 149922971 :: List.replicate 18 0
        winning_roll_key := some 0
        losing_roll_key := some 2 } := by
  rw [update_unfold _ _ _ accC2]
  decide

/-- C2 counterexample: on `worldC2cex` (all 10000 rolls on face 1,
`max_allowed = 2880534941`, adjustment `1679349133`), face 2's count
359526689 is reduced to 149922971, while exact integer arithmetic
`⌊adjustment × count / max_allowed⌋ = 209603717` would leave 149922972: the
`f64` computation truncates to one more than the exact floor. -/
theorem claimC2_cex :
    World.update (fun _ => 1) worldC2cex =
      some { worldC2cex with
        roll_counts := 1901475993 :: 149922971 :: List.replicate 18 0
        winning_roll_key := some 0
        losing_roll_key := some 2 } ∧
    (149922971 : ℕ) ≠
      359526689 - min ((1679349133 * 359526689) / 2880534941) 359526689 ∧
    (1679349133 : ℕ) =
      listMax (4559884074 :: 359526689 :: List.replicate 18 0) -
        worldC2cex.column_width * worldC2cex.height :=
  ⟨updC2, by decide, by decide⟩

/-- C2 (amended): in `update()`'s overflow-normalization phase (maximum
accumulated count above `max_allowed = column_width × canvas_height`,
`column_width ≠ 0`), the adjustment is `max_found - max_allowed` rounded
down to the nearest multiple of `column_width` (so `adjustment %
column_width = 0`), and every face's count is reduced by
`min(count, trunc(adjustment · (count / max_allowed)))` computed in IEEE-754
binary64 arithmetic (`rollAdjF64`), which approximates — but can differ by
one from — the exact integer `⌊adjustment × count / max_allowed⌋`. -/
theorem claimC2 (s : World) (rng : ℕ → ℕ) (s2 : World) (A : List ℕ) (i : ℕ)
    (hacc : rollAccum ((List.range 10000).map rng) s.roll_counts = some A)
    (htrig : s.column_width * s.height < listMax A)
    (hcw : s.column_width ≠ 0)
    (hupd : World.update rng s = some s2) :
    (listMax A - s.column_width * s.height -
        (listMax A - s.column_width * s.height) % s.column_width) %
      s.column_width = 0 ∧
    s2.roll_counts.getD i 0 = A.getD i 0 -
      min (rollAdjF64
            (listMax A - s.column_width * s.height -
              (listMax A - s.column_width * s.height) % s.column_width)
            (A.getD i 0) (s.column_width * s.height))
          (A.getD i 0) := by
  constructor
  · rw [show listMax A - s.column_width * s.height -
        (listMax A - s.column_width * s.height) % s.column_width =
        s.column_width * ((listMax A - s.column_width * s.height) / s.column_width) from by
      have := Nat.div_add_mod (listMax A - s.column_width * s.height) s.column_width
      omega]
    exact Nat.mul_mod_right _ _
  · rw [update_unfold rng s A hacc] at hupd
    obtain ⟨L, hL, hs2L⟩ := Option.map_eq_some'.mp hupd
    have hcounts : s2.roll_counts = L := by rw [← hs2L]
    have hM : A.foldl max 0 = listMax A := by
      rw [foldl_max_eq]
      omega
    rcases normalizePhase_cases _ _ _ _ _ hL with ⟨hle, rfl⟩ | ⟨h1, h2, rfl⟩
    · rw [hM] at hle
      omega
    · rw [hcounts, getD_map_f0 _ _ (by simp) i, hM]

/-- Witness for C2 on `worldC2cex` at face index 1. -/
theorem claimC2_witness :
    (listMax (4559884074 :: 359526689 :: List.replicate 18 0) -
        worldC2cex.column_width * worldC2cex.height -
        (listMax (4559884074 :: 359526689 :: List.replicate 18 0) -
          worldC2cex.column_width * worldC2cex.height) % worldC2cex.column_width) %
      worldC2cex.column_width = 0 ∧
    ({ worldC2cex with
        roll_counts := 1901475993 :: 149922971 :: List.replicate 18 0
        winning_roll_key := some 0
        losing_roll_key := some 2 } : World).roll_counts.getD 1 0 =
      (4559884074 :: 359526689 :: List.replicate 18 0).getD 1 0 -
      min (rollAdjF64
            (listMax (4559884074 :: 359526689 :: List.replicate 18 0) -
              worldC2cex.column_width * worldC2cex.height -
              (listMax (4559884074 :: 359526689 :: List.replicate 18 0) -
                worldC2cex.column_width * worldC2cex.height) %
                worldC2cex.column_width)
            ((4559884074 :: 359526689 :: List.replicate 18 0).getD 1 0)
            (worldC2cex.column_width * worldC2cex.height))
          ((4559884074 :: 359526689 :: List.replicate 18 0).getD 1 0) :=
  claimC2 worldC2cex (fun _ => 1)
    { worldC2cex with
      roll_counts := 1901475993 :: 149922971 :: List.replicate 18 0
      winning_roll_key := some 0
      losing_roll_key := some 2 }
    (4559884074 :: 359526689 :: List.replicate 18 0) 1
    accC2 (by decide) (by decide) updC2

/-! ## Claims: `draw` -/

/-- C6 counterexample: on `worldC6cex` (65536 × 131072, so the buffer has
`2 ^ 33` pixels), pixel `i = 2 ^ 32 + 100` satisfies the claim's hypotheses,
but the code (whose `i as u32` cast truncates `i` to 100) draws background
gray while the claim's formula (using the untruncated `i div width`) assigns
the highlighted palette color of face 1. -/
theorem claimC6_cex :
    worldC6cex.layoutConsistent ∧
    20 ≤ worldC6cex.width ∧ 1 ≤ worldC6cex.height ∧
    2 ^ 32 + 100 < worldC6cex.width * worldC6cex.height ∧
    worldC6cex.drawPixel (2 ^ 32 + 100) = some [0x33, 0x33, 0x33, 0xff] ∧
    pixelSpec worldC6cex (2 ^ 32 + 100) = [0, 9, 9, 255] ∧
    ([0x33, 0x33, 0x33, 0xff] : List ℕ) ≠ [0, 9, 9, 255] := by
  refine ⟨⟨by decide, by decide⟩, by decide, by decide, by decide, ?_, ?_, by decide⟩
  · decide
  · decide

/-- C6 (amended): for every layout-consistent state with `20 ≤ width < 2^32`,
`height ≥ 1` and a buffer of at most `2 ^ 32` pixels (`width × height ≤
2 ^ 32`, so the `i as u32` cast in the source is lossless and the `u32`
`value` arithmetic cannot wrap), `draw` assigns every pixel `i < width ×
height` exactly the color of the claim's formula (`pixelSpec`): face
assignment by `left_margin ≤ total_x < left_margin + column_width × 20`,
highlight by `y × column_width + bar_x + 1 ≤ counts[face]`, colors gray /
green (winning) / red (losing) / palette in priority order.  Without the
`width × height ≤ 2 ^ 32` bound the claim fails (`claimC6_cex`). -/
theorem claimC6 (s : World) (i : ℕ)
    (hlc : s.layoutConsistent) (hw : 20 ≤ s.width) (hw32 : s.width < 2 ^ 32)
    (hh : 1 ≤ s.height) (hwh : s.width * s.height ≤ 2 ^ 32)
    (hi : i < s.width * s.height) :
    s.drawPixel i = some (pixelSpec s i) := by
  obtain ⟨hcw, hoff⟩ := hlc
  have hw0 : ¬s.width = 0 := by omega
  have hi32 : i < 2 ^ 32 := by omega
  have hcw1 : 1 ≤ s.column_width := by
    rw [hcw]
    omega
  have hcwle : s.column_width * 20 ≤ s.width := by
    rw [hcw]
    exact Nat.div_mul_le_self _ _
  have hoffle : s.offset + s.column_width * 20 ≤ s.width := by
    rw [hoff, hcw]
    omega
  have hdlt : i / s.width < s.height := by
    rw [Nat.div_lt_iff_lt_mul (by omega)]
    calc i < s.width * s.height := hi
    _ = s.height * s.width := by ring
  have hh32 : s.height ≤ 2 ^ 32 := by
    have : s.height ≤ s.width * s.height :=
      Nat.le_mul_of_pos_left _ (by omega)
    omega
  have hch : s.height * s.column_width < 2 ^ 32 := by
    have h1 : s.column_width * 20 * s.height ≤ s.width * s.height :=
      Nat.mul_le_mul_right _ hcwle
    have h2 : s.height * s.column_width * 20 = s.column_width * 20 * s.height := by
      ring
    have h3 : s.height * s.column_width * 20 ≤ 2 ^ 32 := by omega
    have h4 : s.height * s.column_width ≤ 2 ^ 32 / 20 := by
      rw [Nat.le_div_iff_mul_le (by norm_num)]
      exact h3
    omega
  have hy : (s.height + 2 ^ 32 - 1 - i / s.width) % 2 ^ 32 =
      s.height - 1 - i / s.width := by
    generalize hd : i / s.width = d at hdlt
    omega
  have hcut : (s.offset + s.column_width * 20) % 2 ^ 32 =
      s.offset + s.column_width * 20 := by
    apply Nat.mod_eq_of_lt
    omega
  unfold World.drawPixel pixelSpec
  rw [if_neg hw0]
  simp only [Nat.mod_eq_of_lt hi32, hy, hcut]
  by_cases hface : s.offset ≤ i % s.width ∧
      i % s.width < s.offset + s.column_width * 20
  · rw [if_pos hface, if_pos hface]
    obtain ⟨d, hdEq, hdLt⟩ : ∃ d, i / s.width = d ∧ d < s.height := ⟨_, rfl, hdlt⟩
    rw [hdEq]
    obtain ⟨W, hWeq, hWlt⟩ : ∃ W, s.height * s.column_width = W ∧ W < 2 ^ 32 :=
      ⟨_, rfl, hch⟩
    obtain ⟨bar, hbarEq, hbarLt⟩ : ∃ b,
        i % s.width - s.offset -
          (i % s.width - s.offset) / s.column_width * s.column_width = b ∧
        b < s.column_width := by
      refine ⟨_, rfl, ?_⟩
      have hdm := Nat.div_add_mod (i % s.width - s.offset) s.column_width
      have hml : (i % s.width - s.offset) % s.column_width < s.column_width :=
        Nat.mod_lt _ (by omega)
      rw [Nat.mul_comm s.column_width
        ((i % s.width - s.offset) / s.column_width)] at hdm
      omega
    obtain ⟨Y, hYeq, hYle⟩ : ∃ Y,
        (s.height - 1 - d) * s.column_width = Y ∧
        Y + s.column_width ≤ W := by
      refine ⟨_, rfl, ?_⟩
      have hyle : s.height - 1 - d ≤ s.height - 1 := by omega
      have hycw : (s.height - 1 - d) * s.column_width ≤
          (s.height - 1) * s.column_width :=
        Nat.mul_le_mul_right _ hyle
      have hsucc : (s.height - 1) * s.column_width + s.column_width =
          s.height * s.column_width := by
        have h1 : s.height - 1 + 1 = s.height := by omega
        calc (s.height - 1) * s.column_width + s.column_width
            = (s.height - 1 + 1) * s.column_width := by ring
        _ = s.height * s.column_width := by rw [h1]
      calc (s.height - 1 - d) * s.column_width + s.column_width
          ≤ (s.height - 1) * s.column_width + s.column_width :=
            Nat.add_le_add_right hycw _
      _ = s.height * s.column_width := hsucc
      _ = W := hWeq
    rw [hbarEq, hYeq]
    have hY32 : Y < 2 ^ 32 :=
      lt_of_le_of_lt (le_trans (Nat.le_add_right Y s.column_width) hYle) hWlt
    have hvlt : Y + bar + 1 < 2 ^ 32 := by
      calc Y + bar + 1 = Y + (bar + 1) := by ring
      _ ≤ Y + s.column_width := Nat.add_le_add_left hbarLt Y
      _ ≤ W := hYle
      _ < 2 ^ 32 := hWlt
    simp only [Option.getD_some, decide_eq_true_eq,
      Nat.mod_eq_of_lt hY32, Nat.mod_eq_of_lt hvlt]
    rw [hbarEq, Nat.mod_eq_of_lt hvlt]
  · rw [if_neg hface, if_neg hface]
    rfl

/-- Witness for C6: pixel 0 of the fresh 400×100 state. -/
theorem claimC6_witness :
    (World.new 400 100).drawPixel 0 = some (pixelSpec (World.new 400 100) 0) :=
  claimC6 (World.new 400 100) 0
    (set_size_layoutConsistent _ 400 100 (by norm_num))
    (by decide) (by decide) (by decide) (by decide) (by decide)

/-- C8 counterexample: on `worldC8cex` (1310720 × 65536, `column_width =
65536`, all counts 0), the pixel at index 65535 lies in face 1's column at
`y = 65535`, where `y * column_width + bar_x + 1 = 2 ^ 32` wraps to 0 in
`u32`, so `0 ≤ counts[0] = 0` marks it highlighted: the pixel is drawn in
the face's palette color, not background gray, despite the count being 0. -/
theorem claimC8_cex :
    worldC8cex.layoutConsistent ∧
    worldC8cex.roll_counts.getD 0 0 = 0 ∧
    65535 < worldC8cex.width * worldC8cex.height ∧
    worldC8cex.offset ≤ 65535 % 2 ^ 32 % worldC8cex.width ∧
    65535 % 2 ^ 32 % worldC8cex.width <
      worldC8cex.offset + worldC8cex.column_width * 20 ∧
    (65535 % 2 ^ 32 % worldC8cex.width - worldC8cex.offset) /
      worldC8cex.column_width = 0 ∧
    worldC8cex.drawPixel 65535 = some [0, 9, 9, 255] ∧
    ([0, 9, 9, 255] : List ℕ) ≠ [0x33, 0x33, 0x33, 0xff] := by
  exact ⟨⟨by decide, by decide⟩, by decide, by decide, by decide, by decide,
    by decide, by decide, by decide⟩

/-- C8 (amended): in a layout-consistent state with `20 ≤ width < 2 ^ 32`,
`height ≥ 1` and no `u32` overflow in the column capacity
(`height × column_width < 2 ^ 32` — without this bound the claim fails,
`claimC8_cex`), every buffer pixel the code assigns to a face `f` with
`counts[f] = 0` is drawn background gray. -/
theorem claimC8 (s : World) (i f : ℕ)
    (hlc : s.layoutConsistent) (hw : 20 ≤ s.width) (hw32 : s.width < 2 ^ 32)
    (hh : 1 ≤ s.height) (hch : s.height * s.column_width < 2 ^ 32)
    (hi : i < s.width * s.height)
    (hzero : s.roll_counts.getD f 0 = 0)
    (hface1 : s.offset ≤ i % 2 ^ 32 % s.width)
    (hface2 : i % 2 ^ 32 % s.width < s.offset + s.column_width * 20)
    (hface3 : (i % 2 ^ 32 % s.width - s.offset) / s.column_width = f) :
    s.drawPixel i = some [0x33, 0x33, 0x33, 0xff] := by
  obtain ⟨hcw, hoff⟩ := hlc
  have hw0 : ¬s.width = 0 := by omega
  have hcw1 : 1 ≤ s.column_width := by
    rw [hcw]
    omega
  have hcwle : s.column_width * 20 ≤ s.width := by
    rw [hcw]
    exact Nat.div_mul_le_self _ _
  have hoffle : s.offset + s.column_width * 20 ≤ s.width := by
    rw [hoff, hcw]
    omega
  have hiT : i % 2 ^ 32 < s.width * s.height :=
    lt_of_le_of_lt (Nat.mod_le _ _) hi
  have hdlt : i % 2 ^ 32 / s.width < s.height := by
    rw [Nat.div_lt_iff_lt_mul (by omega)]
    calc i % 2 ^ 32 < s.width * s.height := hiT
    _ = s.height * s.width := by ring
  have hh32 : s.height ≤ 2 ^ 32 := by
    have : s.height ≤ s.height * s.column_width :=
      Nat.le_mul_of_pos_right _ (by omega)
    omega
  have hy : (s.height + 2 ^ 32 - 1 - i % 2 ^ 32 / s.width) % 2 ^ 32 =
      s.height - 1 - i % 2 ^ 32 / s.width := by
    obtain ⟨d, hdEq, hdLt⟩ : ∃ d, i % 2 ^ 32 / s.width = d ∧ d < s.height :=
      ⟨_, rfl, hdlt⟩
    rw [hdEq]
    omega
  have hcut : (s.offset + s.column_width * 20) % 2 ^ 32 =
      s.offset + s.column_width * 20 :=
    Nat.mod_eq_of_lt (by omega)
  unfold World.drawPixel
  rw [if_neg hw0]
  simp only [hy, hcut]
  rw [if_pos (And.intro hface1 hface2), hface3]
  dsimp only
  obtain ⟨d, hdEq, hdLt⟩ : ∃ d, i % 2 ^ 32 / s.width = d ∧ d < s.height :=
    ⟨_, rfl, hdlt⟩
  rw [hdEq]
  obtain ⟨W, hWeq, hWlt⟩ : ∃ W, s.height * s.column_width = W ∧ W < 2 ^ 32 :=
    ⟨_, rfl, hch⟩
  obtain ⟨bar, hbarEq, hbarLt⟩ : ∃ b,
      i % 2 ^ 32 % s.width - s.offset - f * s.column_width = b ∧
      b < s.column_width := by
    refine ⟨_, rfl, ?_⟩
    rw [← hface3]
    have hdm := Nat.div_add_mod (i % 2 ^ 32 % s.width - s.offset) s.column_width
    have hml : (i % 2 ^ 32 % s.width - s.offset) % s.column_width <
        s.column_width := Nat.mod_lt _ (by omega)
    rw [Nat.mul_comm s.column_width
      ((i % 2 ^ 32 % s.width - s.offset) / s.column_width)] at hdm
    omega
  obtain ⟨Y, hYeq, hYle⟩ : ∃ Y,
      (s.height - 1 - d) * s.column_width = Y ∧ Y + s.column_width ≤ W := by
    refine ⟨_, rfl, ?_⟩
    have hyle : s.height - 1 - d ≤ s.height - 1 := by omega
    have hycw : (s.height - 1 - d) * s.column_width ≤
        (s.height - 1) * s.column_width :=
      Nat.mul_le_mul_right _ hyle
    have hsucc : (s.height - 1) * s.column_width + s.column_width =
        s.height * s.column_width := by
      have h1 : s.height - 1 + 1 = s.height := by omega
      calc (s.height - 1) * s.column_width + s.column_width
          = (s.height - 1 + 1) * s.column_width := by ring
      _ = s.height * s.column_width := by rw [h1]
    calc (s.height - 1 - d) * s.column_width + s.column_width
        ≤ (s.height - 1) * s.column_width + s.column_width :=
          Nat.add_le_add_right hycw _
    _ = s.height * s.column_width := hsucc
    _ = W := hWeq
  rw [hbarEq, hYeq]
  have hY32 : Y < 2 ^ 32 :=
    lt_of_le_of_lt (le_trans (Nat.le_add_right Y s.column_width) hYle) hWlt
  have hvlt : Y + bar + 1 < 2 ^ 32 := by
    calc Y + bar + 1 = Y + (bar + 1) := by ring
    _ ≤ Y + s.column_width := Nat.add_le_add_left hbarLt Y
    _ ≤ W := hYle
    _ < 2 ^ 32 := hWlt
  simp only [Nat.mod_eq_of_lt hY32, Nat.mod_eq_of_lt hvlt, hzero,
    decide_eq_true_eq]
  rw [if_neg (by omega : ¬(Y + bar + 1 ≤ 0))]

/-- Witness for C8: pixel 0 of the fresh 400×100 state (face 1, count 0). -/
theorem claimC8_witness :
    (World.new 400 100).drawPixel 0 = some [0x33, 0x33, 0x33, 0xff] :=
  claimC8 (World.new 400 100) 0 0
    (set_size_layoutConsistent _ 400 100 (by norm_num))
    (by decide) (by decide) (by decide) (by decide) (by decide) (by decide)
    (by decide) (by decide) (by decide)
